import Mathlib

/-
Verification development for the per-channel message queue and streaming
reasoning loop of bugbuster-3000 (src/services/bugbuster-manager.js, the
current `AgentSDKManager` class, lines 723-1182).

Two embeddings are developed below, both translated from that source:

1. the reasoning loop `_processMessage` (lines 878-1078) as a pure,
   fuel-bounded function over an abstract model oracle and tool executor;
2. the per-channel lock/queue discipline of `sendMessage` (lines 822-872),
   together with the `setImmediate` drain callback, as a small-step event
   machine whose suspension points match the await points of the source;
3. the inactivity-timer logic (`getOrInitHistory`, `resetInactivityTimer`,
   `closeSession`, lines 794-815 and 1084-1158) as a timed event machine.
-/

namespace BugBuster

/-! ## String helpers mirroring the JavaScript primitives used by the source.
`jsTrim` is `String.prototype.trim` (strip whitespace from both ends) and
`jsToUpper` is `String.prototype.toUpperCase` (per-character uppercase). -/

def jsTrim (s : String) : String :=
  ⟨((s.data.dropWhile Char.isWhitespace).reverse.dropWhile Char.isWhitespace).reverse⟩

def jsToUpper (s : String) : String :=
  ⟨s.data.map Char.toUpper⟩

/-- listStarts hay needle: does hay start with needle (JS startsWith). -/
def listStarts : List Char → List Char → Bool
  | _, [] => true
  | [], _ :: _ => false
  | c :: cs, d :: ds => c == d && listStarts cs ds

/-- listContains hay needle: does hay contain needle as a contiguous run
(JS String.prototype.includes). -/
def listContains : List Char → List Char → Bool
  | [], needle => needle.isEmpty
  | c :: cs, needle => listStarts (c :: cs) needle || listContains cs needle

/-- jsIncludes s sub: JS s.includes(sub). -/
def jsIncludes (s sub : String) : Bool :=
  listContains s.data sub.data

/-! ## Reasoning loop data model (from `_processMessage`). -/

/-- A content block of a model response: a text block or a tool_use block. -/
inductive Block where
  | text (s : String)
  | toolUse (id name input : String)
deriving DecidableEq, Repr

/-- Token usage reported on a model response (`response.usage`). -/
structure Usage where
  inputTokens : Nat
  outputTokens : Nat
deriving DecidableEq, Repr

/-- One model response: content blocks plus usage. -/
structure Response where
  content : List Block
  usage : Usage
deriving DecidableEq, Repr

/-- A tool result entry as pushed by the source
(`{ type: tool_result, tool_use_id, content, is_error }`; a successful call
omits `is_error`, i.e. it is false). -/
structure ToolResult where
  toolUseId : String
  content : String
  isError : Bool
deriving DecidableEq, Repr

/-- One entry of a channel's conversation history. -/
inductive HistEntry where
  | userText (s : String)
  | assistantBlocks (bs : List Block)
  | userResults (rs : List ToolResult)
deriving DecidableEq, Repr

/-- The model capability: given the full history, either a response or a
thrown error (`client.messages.create`). -/
def Model : Type := List HistEntry → Except String Response

/-- The tool capability: `executeTool(name, input)`, which may throw. -/
def Tools : Type := String → String → Except String String

/-- Delivery environment of a run: whether `channelNames` has an entry for
the channel, and whether the channel is currently in a Google Meet. -/
structure DeliveryEnv where
  hasChannelName : Bool
  inMeeting : Bool
deriving DecidableEq, Repr

/-- The sentinel marker the model emits to request silence. -/
def SILENT : String := "[SILENT]"

/-- Source check `trimmedText.toUpperCase() === SILENT`. -/
def isSilentExact (trimmed : String) : Bool :=
  jsToUpper trimmed == SILENT

/-- Source check `trimmedText.toUpperCase().includes(SILENT)`. -/
def containsSilent (trimmed : String) : Bool :=
  jsIncludes (jsToUpper trimmed) SILENT

/-- Accumulator of the streaming state of one run: the accumulated
`assistantText` and the list of texts handed to Outbound Delivery
(`sendViaWebhook` call arguments), in order. -/
structure EmitAcc where
  assistantText : String
  deliveries : List String
deriving DecidableEq, Repr

/-- Body of the `for (const block of response.content)` loop of
`_processMessage` (lines 958-995): skip empty-trim blocks, accumulate the
raw text, suppress delivery on the sentinel (exact match, then substring
containment), otherwise deliver the trimmed text when a channel name is
stored and the channel is not in a meeting. -/
def emitBlock (env : DeliveryEnv) (acc : EmitAcc) : Block → EmitAcc
  | .toolUse _ _ _ => acc
  | .text s =>
    if jsTrim s == "" then acc
    else
      let trimmedText := jsTrim s
      let acc1 : EmitAcc := { acc with assistantText := acc.assistantText ++ s }
      if isSilentExact trimmedText then acc1
      else if containsSilent trimmedText then acc1
      else if env.hasChannelName then
        if env.inMeeting then acc1
        else { acc1 with deliveries := acc1.deliveries ++ [trimmedText] }
      else acc1

/-- Fold of `emitBlock` over a response's content blocks. -/
def emitBlocks (env : DeliveryEnv) (acc : EmitAcc) (bs : List Block) : EmitAcc :=
  bs.foldl (emitBlock env) acc

/-- `response.content.filter(block => block.type === 'tool_use')`,
keeping (id, name, input). -/
def toolCalls : List Block → List (String × String × String)
  | [] => []
  | .text _ :: bs => toolCalls bs
  | .toolUse i n inp :: bs => (i, n, inp) :: toolCalls bs

/-- The per-turn tool execution loop (lines 1015-1037): execute each
requested call in order; a successful call yields its result, a thrown
error yields a result with content "Error: <message>" and is_error true. -/
def execBatch (tools : Tools) : List (String × String × String) → List ToolResult
  | [] => []
  | (i, n, inp) :: tcs =>
    (match tools n inp with
     | .ok result => { toolUseId := i, content := result, isError := false }
     | .error e => { toolUseId := i, content := "Error: " ++ e, isError := true })
    :: execBatch tools tcs

/-- Result of the tool-execution while loop and the epilogue of
`_processMessage`. `rounds` is the final value of `toolRound`;
`modelInputs` records the history passed to each model call, in order. -/
structure LoopOut where
  history : List HistEntry
  assistantText : String
  deliveries : List String
  rounds : Nat
  finalResponse : Response
  modelInputs : List (List HistEntry)
deriving DecidableEq, Repr

/-- `const MAX_TOOL_ROUNDS = 50` (line 953). -/
def MAX_TOOL_ROUNDS : Nat := 50

/-- The `while (toolRound < MAX_TOOL_ROUNDS)` loop of `_processMessage`
(lines 956-1055), with `fuel` the number of rounds still allowed
(`MAX_TOOL_ROUNDS - toolRound`). At fuel 0 the while condition is false and
the loop exits without entering the body (so the last response's text
blocks are neither emitted nor accumulated); with fuel left, text blocks
are emitted first, then if there are no tool calls the loop breaks,
otherwise the assistant turn and the batch of tool results are appended to
history and the model is called again on the enlarged history. -/
def runLoop (model : Model) (tools : Tools) (env : DeliveryEnv) :
    Nat → Response → List HistEntry → EmitAcc → Except String LoopOut
  | 0, response, history, acc =>
    .ok { history := history, assistantText := acc.assistantText,
          deliveries := acc.deliveries, rounds := 0,
          finalResponse := response, modelInputs := [] }
  | fuel + 1, response, history, acc =>
    let acc1 := emitBlocks env acc response.content
    let tcs := toolCalls response.content
    if tcs.isEmpty then
      .ok { history := history, assistantText := acc1.assistantText,
            deliveries := acc1.deliveries, rounds := 0,
            finalResponse := response, modelInputs := [] }
    else
      let history2 := (history ++ [HistEntry.assistantBlocks response.content])
        ++ [HistEntry.userResults (execBatch tools tcs)]
      match model history2 with
      | .error e => .error e
      | .ok response2 =>
        match runLoop model tools env fuel response2 history2 acc1 with
        | .error e => .error e
        | .ok lo =>
          .ok { lo with rounds := lo.rounds + 1, modelInputs := history2 :: lo.modelInputs }

/-- Outcome of a completed `_processMessage` run. `costMicro` is the cost
tracked for the run, in micro-dollars (the source computes
`input_tokens / 1e6 * 3 + output_tokens / 1e6 * 15` dollars, i.e.
3 micro-dollars per input token and 15 per output token, over the FINAL
response's usage only). -/
structure ProcOut where
  history : List HistEntry
  assistantText : String
  deliveries : List String
  rounds : Nat
  finalResponse : Response
  modelInputs : List (List HistEntry)
  costMicro : Nat
deriving DecidableEq, Repr

/-- Cost of one response's usage, in micro-dollars: $3 per million input
tokens and $15 per million output tokens (lines 1064-1066). -/
def costOf (u : Usage) : Nat :=
  u.inputTokens * 3 + u.outputTokens * 15

/-- `_processMessage` (lines 878-1078): append the user message to history,
call the model, run the tool loop, append the final assistant response to
history, price the final response's usage, and return the accumulated
assistant text. A thrown model call propagates as an error. -/
def processMessage (model : Model) (tools : Tools) (env : DeliveryEnv)
    (history0 : List HistEntry) (userMessage : String) : Except String ProcOut :=
  let history1 := history0 ++ [HistEntry.userText userMessage]
  match model history1 with
  | .error e => .error e
  | .ok r0 =>
    match runLoop model tools env MAX_TOOL_ROUNDS r0 history1 ⟨"", []⟩ with
    | .error e => .error e
    | .ok lo =>
      .ok { history := lo.history ++ [HistEntry.assistantBlocks lo.finalResponse.content],
            assistantText := lo.assistantText, deliveries := lo.deliveries,
            rounds := lo.rounds, finalResponse := lo.finalResponse,
            modelInputs := history1 :: lo.modelInputs,
            costMicro := costOf lo.finalResponse.usage }

/-- Per-channel usage statistics, cost in micro-dollars
(`sessionStats` values; timestamps omitted here, see the timer machine). -/
structure SessionStats where
  totalCost : Nat
  messageCount : Nat
deriving DecidableEq, Repr

/-- `addCost` (lines 1109-1123): accumulate the run's cost and increment
the message count. -/
def addCost (stats : SessionStats) (cost : Nat) : SessionStats :=
  { totalCost := stats.totalCost + cost, messageCount := stats.messageCount + 1 }

/-! ## Queue / processing-lock event machine (from `sendMessage`).

`sendMessage` (lines 822-872) runs synchronously from its entry to the
`await this._processMessage(...)` suspension point; the completion handler
(lock release, queue shift, `setImmediate` scheduling) again runs
synchronously when `_processMessage` settles; the `setImmediate` callback
re-enters `sendMessage` synchronously up to the same suspension point.
These three synchronous segments are the machine's atomic steps. Messages
are identified by numbers; a run's outcome is `Except String String`
(`.error` = `_processMessage` threw). The Boolean carried with an
in-flight run records whether the run was started by the drain callback,
whose `try { next.resolve(await sendMessage(...)) } catch { next.resolve(
"Error: " + message) }` wrapper converts a throw into a resolution. -/

deriving instance DecidableEq for Except

/-- State of one channel: the `processingLocks` flag, the in-flight
`_processMessage` runs (message, startedByDrain), the `messageQueues`
entry, the scheduled-but-not-yet-fired `setImmediate` callbacks, the order
in which runs appended their user message to history (`started`), the
order of external `sendMessage` invocations (`arrivals`), the ids that
were ever pushed onto the queue (`everQueued`), and the settled promises
(message, raw run outcome, caller-visible result; a `.error` result means
the caller-visible promise rejected). -/
structure ChState where
  locked : Bool
  running : List (Nat × Bool)
  queue : List Nat
  drains : List Nat
  started : List Nat
  arrivals : List Nat
  everQueued : List Nat
  resolved : List (Nat × Except String String × Except String String)
deriving DecidableEq, Repr

/-- Initial state of a channel: unlocked and empty everywhere. -/
def initCh : ChState :=
  { locked := false, running := [], queue := [], drains := [],
    started := [], arrivals := [], everQueued := [], resolved := [] }

/-- Global state: one `ChState` per channel id. -/
def QState : Type := Nat → ChState

def initQ : QState := fun _ => initCh

/-- The synchronous prefix of `sendMessage` (lines 827-845): if the
channel's lock is set, push the message onto the queue (creating it if
absent) and return a deferred promise; otherwise set the lock and start
`_processMessage`, which synchronously appends the user message to
history. `wrapped` records whether this invocation came from the drain
callback. -/
def sendMessageEnter (c : ChState) (m : Nat) (wrapped : Bool) : ChState :=
  if c.locked then
    { c with queue := c.queue ++ [m], everQueued := c.everQueued ++ [m] }
  else
    { c with locked := true, running := c.running ++ [(m, wrapped)],
             started := c.started ++ [m] }

/-- The completion handler of `sendMessage` (lines 844-871), running when
the awaited `_processMessage` settles with outcome `out`: delete the lock
(both on the success path and in the catch block); on success, if the
queue is non-empty, shift the oldest entry and schedule a `setImmediate`
callback for it; on a throw, nothing beyond the lock delete happens (the
queue is NOT drained). The caller-visible result is the response on
success; on a throw it is a rejection for a direct caller and a
resolution with "Error: <message>" for a drain-started run. -/
def sendMessageComplete (c : ChState) (out : Except String String) : ChState :=
  match c.running with
  | [] => c
  | (m, w) :: rest =>
    let result : Except String String :=
      match out with
      | .ok v => .ok v
      | .error e => if w then .ok ("Error: " ++ e) else .error e
    let c1 : ChState :=
      { c with running := rest, locked := false,
               resolved := c.resolved ++ [(m, out, result)] }
    match out with
    | .ok _ =>
      match c1.queue with
      | [] => c1
      | q0 :: qs => { c1 with queue := qs, drains := c1.drains ++ [q0] }
    | .error _ => c1

/-- The `setImmediate` callback (lines 857-864): re-enter `sendMessage`
for the shifted entry, as a drain-started (wrapped) invocation. -/
def drainCallback (c : ChState) : ChState :=
  match c.drains with
  | [] => c
  | d0 :: ds => sendMessageEnter { c with drains := ds } d0 true

/-- Events of the machine: an external `sendMessage` invocation for a
channel, the settling of the in-flight run, and the firing of a scheduled
`setImmediate` callback. -/
inductive Ev where
  | submit (ch m : Nat)
  | complete (ch : Nat) (out : Except String String)
  | drain (ch : Nat)
deriving DecidableEq, Repr

/-- The channel an event concerns. -/
def Ev.chOf : Ev → Nat
  | .submit ch _ => ch
  | .complete ch _ => ch
  | .drain ch => ch

/-- Update one channel of the global state. -/
def updCh (s : QState) (ch : Nat) (f : ChState → ChState) : QState :=
  fun ch' => if ch' = ch then f (s ch') else s ch'

/-- One atomic step of the system. -/
def qstep (s : QState) : Ev → QState
  | .submit ch m =>
    updCh s ch (fun c => sendMessageEnter { c with arrivals := c.arrivals ++ [m] } m false)
  | .complete ch out => updCh s ch (fun c => sendMessageComplete c out)
  | .drain ch => updCh s ch drainCallback

/-- The state after running a sequence of events from the initial state. -/
def qreach (evs : List Ev) : QState :=
  evs.foldl qstep initQ

/-! ## Inactivity-timer machine (from `getOrInitHistory`,
`resetInactivityTimer` and `closeSession`). Time is in milliseconds. -/

/-- `this.INACTIVITY_TIMEOUT_MS = 30 * 60 * 1000` (line 738). -/
def INACTIVITY_TIMEOUT_MS : Nat := 30 * 60 * 1000

/-- Timer-relevant state of a channel: whether `conversationHistory` has an
entry, the absolute time at which the pending `setTimeout` fires (none if
no timer is armed), and whether a `_processMessage` run is in flight. -/
structure TimerState where
  hasHistory : Bool
  deadline : Option Nat
  runInFlight : Bool
deriving DecidableEq, Repr

/-- `resetInactivityTimer` (lines 1084-1103) at time `t`: clear any
existing timer and arm a new one 30 minutes from now. -/
def resetInactivityTimer (s : TimerState) (t : Nat) : TimerState :=
  { s with deadline := some (t + INACTIVITY_TIMEOUT_MS) }

/-- `getOrInitHistory` (lines 794-815) at time `t`: create the history if
absent; in both branches, reset the inactivity timer. -/
def getOrInitHistory (s : TimerState) (t : Nat) : TimerState :=
  resetInactivityTimer { s with hasHistory := true } t

/-- `closeSession` (lines 1140-1158): if the history exists, clear the
timer and discard the history (and stats). -/
def closeSession (s : TimerState) : TimerState :=
  if s.hasHistory then { s with hasHistory := false, deadline := none } else s

/-- Timer-machine events: a message's processing begins at time `t`
(`_processMessage` calls `getOrInitHistory`), the run completes at time
`t` (the source performs no timer action there), and the armed timer
fires at its deadline `t` (the `setTimeout` callback calls
`closeSession`). -/
inductive TEv where
  | msgStart (t : Nat)
  | runEnd (t : Nat)
  | timerFire (t : Nat)
deriving DecidableEq, Repr

/-- One step of the timer machine. A `timerFire` at a time other than the
armed deadline does not occur in the source (the timeout fires exactly at
its deadline unless cleared), so it is a no-op here. -/
def tstep (s : TimerState) : TEv → TimerState
  | .msgStart t => { getOrInitHistory s t with runInFlight := true }
  | .runEnd _ => { s with runInFlight := false }
  | .timerFire t => if s.deadline = some t then closeSession s else s

/-- Timer machine run from the empty initial state. -/
def treach (evs : List TEv) : TimerState :=
  evs.foldl tstep { hasHistory := false, deadline := none, runInFlight := false }

/-! ## Helper lemmas about the reasoning loop. -/

/-- The loop performs at most `fuel` tool rounds. -/
theorem runLoop_rounds_le (model : Model) (tools : Tools) (env : DeliveryEnv) :
    ∀ fuel r history acc lo,
      runLoop model tools env fuel r history acc = Except.ok lo → lo.rounds ≤ fuel := by
  intro fuel
  induction fuel with
  | zero =>
    intro r history acc lo hok
    simp only [runLoop] at hok
    cases hok
    exact Nat.le_refl 0
  | succ n ih =>
    intro r history acc lo hok
    simp only [runLoop] at hok
    split at hok
    · cases hok
      exact Nat.zero_le _
    · split at hok
      · exact absurd hok (by simp)
      · split at hok
        · exact absurd hok (by simp)
        · cases hok
          exact Nat.succ_le_succ (ih _ _ _ _ (by assumption))

/-- With a model that never throws, the loop always returns `.ok`. -/
theorem runLoop_total (model : Model) (tools : Tools) (env : DeliveryEnv)
    (hm : ∀ h, ∃ r, model h = Except.ok r) :
    ∀ fuel r history acc, ∃ lo, runLoop model tools env fuel r history acc = Except.ok lo := by
  intro fuel
  induction fuel with
  | zero =>
    intro r history acc
    exact ⟨_, rfl⟩
  | succ n ih =>
    intro r history acc
    simp only [runLoop]
    split
    · exact ⟨_, rfl⟩
    · obtain ⟨r2, hr2⟩ := hm ((history ++ [HistEntry.assistantBlocks r.content])
        ++ [HistEntry.userResults (execBatch tools (toolCalls r.content))])
      obtain ⟨lo, hlo⟩ := ih r2 ((history ++ [HistEntry.assistantBlocks r.content])
        ++ [HistEntry.userResults (execBatch tools (toolCalls r.content))])
        (emitBlocks env acc r.content)
      simp only [hr2, hlo]
      exact ⟨_, rfl⟩

/-- With a model that always requests at least one tool call, the loop
exhausts its fuel exactly. -/
theorem runLoop_alwaysTool (model : Model) (tools : Tools) (env : DeliveryEnv)
    (hm : ∀ h, ∃ r, model h = Except.ok r ∧ (toolCalls r.content).isEmpty = false) :
    ∀ fuel r history acc, (toolCalls r.content).isEmpty = false →
      ∃ lo, runLoop model tools env fuel r history acc = Except.ok lo ∧ lo.rounds = fuel := by
  intro fuel
  induction fuel with
  | zero =>
    intro r history acc _
    exact ⟨_, rfl, rfl⟩
  | succ n ih =>
    intro r history acc htc
    simp only [runLoop]
    rw [if_neg (by simp [htc])]
    obtain ⟨r2, hr2, htc2⟩ := hm ((history ++ [HistEntry.assistantBlocks r.content])
      ++ [HistEntry.userResults (execBatch tools (toolCalls r.content))])
    obtain ⟨lo, hlo, hr⟩ := ih r2 ((history ++ [HistEntry.assistantBlocks r.content])
      ++ [HistEntry.userResults (execBatch tools (toolCalls r.content))])
      (emitBlocks env acc r.content) htc2
    simp only [hr2, hlo]
    exact ⟨_, rfl, by simp [hr]⟩

/-- An erroring tool invocation contributes an error-flagged result with
content "Error: <message>" to the batch. -/
theorem execBatch_error_mem (tools : Tools) :
    ∀ (tcs : List (String × String × String)) i n inp e, (i, n, inp) ∈ tcs →
      tools n inp = Except.error e →
      ToolResult.mk i ("Error: " ++ e) true ∈ execBatch tools tcs := by
  intro tcs
  induction tcs with
  | nil => intro i n inp e hmem; cases hmem
  | cons hd tl ih =>
    intro i n inp e hmem herr
    cases hmem with
    | head =>
      simp only [execBatch, herr]
      exact List.mem_cons_self _ _
    | tail _ hmem' =>
      obtain ⟨i', n', inp'⟩ := hd
      simp only [execBatch]
      exact List.mem_cons_of_mem _ (ih i n inp e hmem' herr)

/-- The exact-match sentinel check implies the containment check. -/
theorem isSilentExact_containsSilent (t : String) :
    isSilentExact t = true → containsSilent t = true := by
  intro h
  have heq : jsToUpper t = SILENT := by
    simpa [isSilentExact] using h
  simp only [containsSilent, jsIncludes, heq]
  decide

/-! ## Concrete model and tool stubs used by counterexamples and witnesses. -/

/-- A model stub that always requests one tool call and emits no text. -/
def ctModel : Model := fun _ =>
  Except.ok { content := [Block.toolUse "t1" "check" "x"], usage := ⟨1, 1⟩ }

/-- A tool stub that always succeeds. -/
def ctTools : Tools := fun _ _ => Except.ok "ok"

/-- A model stub whose first call (history length 1) requests a tool and
consumes 1,000,000 input tokens, and whose second call answers in text
with zero reported usage. -/
def c8Model : Model := fun h =>
  if h.length < 2 then
    Except.ok { content := [Block.toolUse "t1" "check" "x"], usage := ⟨1000000, 0⟩ }
  else
    Except.ok { content := [Block.text "done"], usage := ⟨0, 0⟩ }

/-- A model stub that answers immediately in text, usage 2 input and
1 output token. -/
def wModel : Model := fun _ =>
  Except.ok { content := [Block.text "done"], usage := ⟨2, 1⟩ }

/-- A model stub that requests one tool call on its first invocation and
then answers in text; paired with an always-throwing tool. -/
def c7Model : Model := fun h =>
  if h.length < 2 then
    Except.ok { content := [Block.toolUse "t1" "boomtool" "x"], usage := ⟨1, 1⟩ }
  else
    Except.ok { content := [Block.text "recovered"], usage := ⟨1, 1⟩ }

/-- A tool stub that always throws "boom". -/
def c7Tools : Tools := fun _ _ => Except.error "boom"

/-! ## Claim C3: turn-limit termination. -/

/-- Claim C3 (amended): for every model and tool set the reasoning loop
terminates, performing at most MAX_TOOL_ROUNDS (50) tool rounds; a model
that always requests a tool call drives it to exactly 50 rounds, at which
point the run stops and returns the accumulated assistant text (the last
response is appended to history unemitted). No fixed "analysis timed out"
message is produced — see the counterexample. -/
theorem C3_turn_limit_termination (model : Model) (tools : Tools) (env : DeliveryEnv)
    (history0 : List HistEntry) (userMessage : String)
    (hm : ∀ h, ∃ r, model h = Except.ok r ∧ (toolCalls r.content).isEmpty = false) :
    (∃ out, processMessage model tools env history0 userMessage = Except.ok out ∧
       out.rounds = MAX_TOOL_ROUNDS) ∧
    (∀ (model' : Model) (tools' : Tools) (env' : DeliveryEnv) h0 msg out,
       processMessage model' tools' env' h0 msg = Except.ok out →
       out.rounds ≤ MAX_TOOL_ROUNDS) := by
  constructor
  · obtain ⟨r0, hr0, htc0⟩ := hm (history0 ++ [HistEntry.userText userMessage])
    obtain ⟨lo, hlo, hrounds⟩ := runLoop_alwaysTool model tools env hm MAX_TOOL_ROUNDS r0
      (history0 ++ [HistEntry.userText userMessage]) ⟨"", []⟩ htc0
    have hp : processMessage model tools env history0 userMessage = Except.ok
        { history := lo.history ++ [HistEntry.assistantBlocks lo.finalResponse.content],
          assistantText := lo.assistantText, deliveries := lo.deliveries,
          rounds := lo.rounds, finalResponse := lo.finalResponse,
          modelInputs := (history0 ++ [HistEntry.userText userMessage]) :: lo.modelInputs,
          costMicro := costOf lo.finalResponse.usage } := by
      simp only [processMessage, hr0, hlo]
    exact ⟨_, hp, hrounds⟩
  · intro model' tools' env' h0 msg out hout
    simp only [processMessage] at hout
    split at hout
    · exact absurd hout (by simp)
    · split at hout
      · exact absurd hout (by simp)
      · cases hout
        exact runLoop_rounds_le model' tools' env' MAX_TOOL_ROUNDS _ _ _ _ (by assumption)

/-- Claim C3, witness: the always-tool stub reaches exactly 50 rounds. -/
theorem C3_turn_limit_termination_witness :
    (processMessage ctModel ctTools ⟨true, false⟩ [] "hi").toOption.map
      (fun o => o.rounds) = some MAX_TOOL_ROUNDS := by
  have h := C3_turn_limit_termination ctModel ctTools ⟨true, false⟩ [] "hi"
    (fun _ => ⟨_, rfl, rfl⟩)
  obtain ⟨out, hout, hrounds⟩ := h.1
  rw [hout]
  simp [Except.toOption, hrounds]

/-- Claim C3, counterexample: with a model that always requests a tool
call and emits no text, the run stops after exactly 50 rounds but returns
the empty accumulated assistant text and performs no delivery; the
claimed fixed "analysis timed out" message appears nowhere (no such
string exists in bugbuster-manager.js). -/
theorem C3_counterexample :
    (processMessage ctModel ctTools ⟨true, false⟩ [] "hi").toOption.map
      (fun o => (o.rounds, o.assistantText, o.deliveries)) = some (50, "", []) ∧
    jsIncludes (jsToUpper "") (jsToUpper "analysis timed out") = false := by
  exact ⟨by decide, by decide⟩

/-! ## Claim C6: sentinel suppression. -/

/-- Claim C6: a text chunk whose trimmed form contains the sentinel
(case-insensitively; exact equality is a special case of containment) is
appended to the accumulated assistant text but triggers no delivery call;
a non-empty chunk without the sentinel triggers exactly one delivery call
carrying the chunk's trimmed text (environment: channel name stored, not
in a meeting). -/
theorem C6_sentinel_suppression (acc : EmitAcc) (s : String) :
    (containsSilent (jsTrim s) = true → (jsTrim s == "") = false →
       emitBlock ⟨true, false⟩ acc (Block.text s) =
         { assistantText := acc.assistantText ++ s, deliveries := acc.deliveries }) ∧
    (containsSilent (jsTrim s) = false → (jsTrim s == "") = false →
       emitBlock ⟨true, false⟩ acc (Block.text s) =
         { assistantText := acc.assistantText ++ s,
           deliveries := acc.deliveries ++ [jsTrim s] }) := by
  constructor
  · intro hsil hne
    by_cases hex : isSilentExact (jsTrim s) = true
    · simp [emitBlock, hne, hex]
    · simp [emitBlock, hne, hex, hsil]
  · intro hsil hne
    have hex : isSilentExact (jsTrim s) = false := by
      by_contra h
      rw [isSilentExact_containsSilent (jsTrim s) (by simpa using h)] at hsil
      cases hsil
    simp [emitBlock, hne, hex, hsil]

/-- Claim C6, witness: a sentinel chunk is accumulated but not delivered;
a plain chunk is delivered exactly once with its (trimmed) text. -/
theorem C6_sentinel_suppression_witness :
    emitBlock ⟨true, false⟩ ⟨"", []⟩ (Block.text " [silent] ") =
      { assistantText := "" ++ " [silent] ", deliveries := ([] : List String) } ∧
    emitBlock ⟨true, false⟩ ⟨"", []⟩ (Block.text "hi") =
      { assistantText := "" ++ "hi", deliveries := [] ++ [jsTrim "hi"] } :=
  ⟨(C6_sentinel_suppression ⟨"", []⟩ " [silent] ").1 (by decide) (by decide),
   (C6_sentinel_suppression ⟨"", []⟩ "hi").2 (by decide) (by decide)⟩

/-! ## Claim C7: per-tool error containment. -/

/-- Claim C7: with a model that never throws, a run always completes
(returns `.ok`) no matter how tools fail; every erroring tool invocation
contributes a history entry flagged isError = true with content
"Error: <message>"; and when a round executes tools, the next model call
receives the history extended with exactly that batch of results. -/
theorem C7_tool_error_containment (model : Model) (tools : Tools) (env : DeliveryEnv)
    (history0 : List HistEntry) (userMessage : String)
    (hm : ∀ h, ∃ r, model h = Except.ok r) :
    (∃ out, processMessage model tools env history0 userMessage = Except.ok out) ∧
    (∀ tcs i n inp e, (i, n, inp) ∈ tcs → tools n inp = Except.error e →
       ToolResult.mk i ("Error: " ++ e) true ∈ execBatch tools tcs) ∧
    (∀ fuel r history acc lo,
       runLoop model tools env (fuel + 1) r history acc = Except.ok lo →
       (toolCalls r.content).isEmpty = false →
       ((history ++ [HistEntry.assistantBlocks r.content]) ++
         [HistEntry.userResults (execBatch tools (toolCalls r.content))]) ∈ lo.modelInputs) := by
  refine ⟨?_, execBatch_error_mem tools, ?_⟩
  · obtain ⟨r0, hr0⟩ := hm (history0 ++ [HistEntry.userText userMessage])
    obtain ⟨lo, hlo⟩ := runLoop_total model tools env hm MAX_TOOL_ROUNDS r0
      (history0 ++ [HistEntry.userText userMessage]) ⟨"", []⟩
    refine ⟨{ history := lo.history ++ [HistEntry.assistantBlocks lo.finalResponse.content],
              assistantText := lo.assistantText, deliveries := lo.deliveries,
              rounds := lo.rounds, finalResponse := lo.finalResponse,
              modelInputs := (history0 ++ [HistEntry.userText userMessage]) :: lo.modelInputs,
              costMicro := costOf lo.finalResponse.usage }, ?_⟩
    simp only [processMessage, hr0, hlo]
  · intro fuel r history acc lo hok htc
    simp only [runLoop] at hok
    rw [if_neg (by simp [htc])] at hok
    split at hok
    · exact absurd hok (by simp)
    · split at hok
      · exact absurd hok (by simp)
      · cases hok
        exact List.mem_cons_self _ _

/-- Claim C7, witness: an always-throwing tool does not abort the run;
the error-flagged result is present in the executed batch. -/
theorem C7_tool_error_containment_witness :
    (processMessage c7Model c7Tools ⟨true, false⟩ [] "go").toOption.isSome = true ∧
    ToolResult.mk "t1" ("Error: " ++ "boom") true ∈
      execBatch c7Tools [("t1", "boomtool", "x")] := by
  have h := C7_tool_error_containment c7Model c7Tools ⟨true, false⟩ [] "go"
    (fun h => by
      simp only [c7Model]
      split
      · exact ⟨_, rfl⟩
      · exact ⟨_, rfl⟩)
  refine ⟨?_, h.2.1 [("t1", "boomtool", "x")] "t1" "boomtool" "x" "boom"
    (List.mem_singleton.mpr rfl) rfl⟩
  obtain ⟨out, hout⟩ := h.1
  rw [hout]
  rfl

/-! ## Claim C8: cost accounting. -/

/-- Claim C8 (amended): `addCost` increases totalCost by the given
non-negative cost and messageCount by exactly 1, so both are monotone
across a session's lifetime; but cost is recorded once per completed run,
priced on the FINAL response's usage only (input tokens at 3 and output
tokens at 15 micro-dollars each) — intermediate model calls inside the
tool loop are not priced, see the counterexample. -/
theorem C8_cost_accounting :
    (∀ stats cost, (addCost stats cost).totalCost = stats.totalCost + cost ∧
       (addCost stats cost).messageCount = stats.messageCount + 1 ∧
       stats.totalCost ≤ (addCost stats cost).totalCost ∧
       stats.messageCount ≤ (addCost stats cost).messageCount) ∧
    (∀ (model : Model) (tools : Tools) (env : DeliveryEnv) h0 msg out,
       processMessage model tools env h0 msg = Except.ok out →
       out.costMicro = costOf out.finalResponse.usage) := by
  constructor
  · intro stats cost
    refine ⟨rfl, rfl, Nat.le_add_right _ _, Nat.le_succ _⟩
  · intro model tools env h0 msg out hout
    simp only [processMessage] at hout
    split at hout
    · exact absurd hout (by simp)
    · split at hout
      · exact absurd hout (by simp)
      · cases hout
        rfl

/-- Claim C8, witness: a run that answers immediately is priced on its
final (only) response: 2 input tokens at 3 plus 1 output token at 15
micro-dollars. -/
theorem C8_cost_accounting_witness :
    (addCost ⟨0, 0⟩ 5).totalCost = 0 + 5 ∧
    ∃ out, processMessage wModel ctTools ⟨true, false⟩ [] "m" = Except.ok out ∧
      out.costMicro = costOf out.finalResponse.usage := by
  refine ⟨(C8_cost_accounting.1 ⟨0, 0⟩ 5).1, ?_⟩
  refine ⟨_, (by decide :
    processMessage wModel ctTools ⟨true, false⟩ [] "m" = Except.ok
      { history := [HistEntry.userText "m", HistEntry.assistantBlocks [Block.text "done"]],
        assistantText := "done", deliveries := ["done"], rounds := 0,
        finalResponse := { content := [Block.text "done"], usage := ⟨2, 1⟩ },
        modelInputs := [[HistEntry.userText "m"]], costMicro := 21 }), ?_⟩
  exact C8_cost_accounting.2 wModel ctTools ⟨true, false⟩ [] "m" _ (by decide)

/-- Claim C8, counterexample: a run with two model calls, the first of
which consumes 1,000,000 input tokens (which at the claimed rate of $3
per million input tokens should add 3,000,000 micro-dollars), records a
total cost of 0 because only the final response's zero usage is priced;
so cost does NOT increase on every model call by the claimed function. -/
theorem C8_counterexample :
    (processMessage c8Model ctTools ⟨true, false⟩ [] "m").toOption.map
      (fun o => (o.costMicro, o.rounds, o.modelInputs.length)) = some (0, 1, 2) ∧
    costOf ⟨1000000, 0⟩ = 3000000 := by
  exact ⟨by decide, by decide⟩

/-! ## Queue-machine invariants. -/

/-- Lock/run agreement and at-most-one-run-in-flight, per channel. -/
def Inv1 (c : ChState) : Prop :=
  c.locked = !c.running.isEmpty ∧ c.running.length ≤ 1

theorem Inv1_init : Inv1 initCh := by
  constructor <;> decide

theorem Inv1_enter (c : ChState) (m : Nat) (w : Bool) (h : Inv1 c) :
    Inv1 (sendMessageEnter c m w) := by
  obtain ⟨h1, h2⟩ := h
  by_cases hl : c.locked = true
  · simp only [sendMessageEnter]
    rw [if_pos hl]
    exact ⟨h1, h2⟩
  · have hl' : c.locked = false := by simpa using hl
    have hr : c.running = [] := by
      cases hr : c.running with
      | nil => rfl
      | cons a l => rw [hr, hl'] at h1; simp at h1
    simp [sendMessageEnter, hl', hr, Inv1]

theorem Inv1_complete (c : ChState) (out : Except String String) (h : Inv1 c) :
    Inv1 (sendMessageComplete c out) := by
  obtain ⟨h1, h2⟩ := h
  cases hr : c.running with
  | nil =>
    simp only [sendMessageComplete, hr]
    exact ⟨h1, h2⟩
  | cons p rest =>
    obtain ⟨m, w⟩ := p
    have hrest : rest = [] := by
      rw [hr] at h2
      simpa using h2
    cases out with
    | ok v =>
      cases hq : c.queue with
      | nil => simp [sendMessageComplete, hr, hq, hrest, Inv1]
      | cons q0 qs => simp [sendMessageComplete, hr, hq, hrest, Inv1]
    | error e => simp [sendMessageComplete, hr, hrest, Inv1]

theorem Inv1_drain (c : ChState) (h : Inv1 c) : Inv1 (drainCallback c) := by
  cases hd : c.drains with
  | nil => simpa [drainCallback, hd] using h
  | cons d0 ds =>
    simp only [drainCallback, hd]
    exact Inv1_enter _ d0 true ⟨h.1, h.2⟩

theorem Inv1_qstep (s : QState) (ev : Ev) (h : ∀ ch, Inv1 (s ch)) :
    ∀ ch, Inv1 (qstep s ev ch) := by
  intro ch
  cases ev with
  | submit ch' m =>
    by_cases he : ch = ch'
    · simp only [qstep, updCh, he, if_pos rfl]
      exact Inv1_enter _ m false ⟨(h ch').1, (h ch').2⟩
    · simpa only [qstep, updCh, if_neg he] using h ch
  | complete ch' out =>
    by_cases he : ch = ch'
    · simp only [qstep, updCh, he, if_pos rfl]
      exact Inv1_complete _ out (h ch')
    · simpa only [qstep, updCh, if_neg he] using h ch
  | drain ch' =>
    by_cases he : ch = ch'
    · simp only [qstep, updCh, he, if_pos rfl]
      exact Inv1_drain _ (h ch')
    · simpa only [qstep, updCh, if_neg he] using h ch

theorem Inv1_qreach (evs : List Ev) : ∀ ch, Inv1 (qreach evs ch) := by
  have hgen : ∀ (s : QState), (∀ ch, Inv1 (s ch)) →
      ∀ ch, Inv1 (List.foldl qstep s evs ch) := by
    induction evs with
    | nil => intro s h ch; exact h ch
    | cons e es ih => intro s h ch; exact ih (qstep s e) (Inv1_qstep s e h) ch
  exact hgen initQ (fun _ => Inv1_init)

/-! ## Claim C1: at most one run in flight per channel. -/

/-- Claim C1: in every reachable state each channel has at most one run
in flight and the lock flag is set exactly while one is (so the flag
transitions 0 to 1 when a run starts and back to 0 only when it ends,
with no interleaving); a `sendMessage` arriving while the lock is set
only enqueues the message (the running set is untouched), and one
arriving while it is clear starts the run and sets the lock. -/
theorem C1_at_most_one_run :
    (∀ evs ch, (qreach evs ch).locked = !(qreach evs ch).running.isEmpty ∧
       (qreach evs ch).running.length ≤ 1) ∧
    (∀ (s : QState) ch m, (s ch).locked = true →
       (qstep s (Ev.submit ch m) ch).running = (s ch).running ∧
       (qstep s (Ev.submit ch m) ch).queue = (s ch).queue ++ [m]) ∧
    (∀ (s : QState) ch m, (s ch).locked = false →
       (qstep s (Ev.submit ch m) ch).running = (s ch).running ++ [(m, false)] ∧
       (qstep s (Ev.submit ch m) ch).locked = true) := by
  refine ⟨fun evs ch => Inv1_qreach evs ch, ?_, ?_⟩
  · intro s ch m hl
    simp [qstep, updCh, sendMessageEnter, hl]
  · intro s ch m hl
    simp [qstep, updCh, sendMessageEnter, hl]

/-- Claim C1, witness: a message for a locked channel is enqueued without
touching the running set; one for an unlocked channel starts a run. -/
theorem C1_at_most_one_run_witness :
    ((qstep (qreach [Ev.submit 0 1]) (Ev.submit 0 2) 0).running =
       (qreach [Ev.submit 0 1] 0).running ∧
     (qstep (qreach [Ev.submit 0 1]) (Ev.submit 0 2) 0).queue =
       (qreach [Ev.submit 0 1] 0).queue ++ [2]) ∧
    ((qstep initQ (Ev.submit 0 1) 0).running = (initQ 0).running ++ [(1, false)] ∧
     (qstep initQ (Ev.submit 0 1) 0).locked = true) :=
  ⟨C1_at_most_one_run.2.1 (qreach [Ev.submit 0 1]) 0 2 (by decide),
   C1_at_most_one_run.2.2 initQ 0 1 (by decide)⟩

/-! ## Claim C5: the lock is always released when a run ends. -/

/-- Claim C5: from any reachable state, the completion of a run — whether
`_processMessage` resolved or threw — leaves the channel's processing
lock cleared (the catch path deletes the lock just as the success path
does), so an error never leaves the channel permanently locked. -/
theorem C5_lock_released_on_completion (evs : List Ev) (ch : Nat)
    (out : Except String String) :
    (qstep (qreach evs) (Ev.complete ch out) ch).locked = false := by
  have hinv := Inv1_qreach evs ch
  simp only [qstep, updCh, if_pos rfl]
  cases hr : (qreach evs ch).running with
  | nil =>
    have h1 := hinv.1
    rw [hr] at h1
    simpa [sendMessageComplete, hr] using h1
  | cons p rest =>
    obtain ⟨m, w⟩ := p
    cases out with
    | ok v =>
      cases hq : (qreach evs ch).queue with
      | nil => simp [sendMessageComplete, hr, hq]
      | cons q0 qs => simp [sendMessageComplete, hr, hq]
    | error e => simp [sendMessageComplete, hr]

/-! ## Claim C2: completion handling — lock clear and queue drain. -/

/-- Claim C2 (amended): when a run completes, the lock is unconditionally
cleared in both the success and the failure path; on SUCCESS, if the
pending list is non-empty, the oldest entry is popped and its
resubmission is scheduled (a `setImmediate` that re-enters `sendMessage`,
re-acquiring the lock, the entry's deferred promise resolved from that
invocation's outcome), and the caller's promise is resolved with the
response; on FAILURE the pending list is NOT drained — the queue and the
scheduled drains are left exactly as they were. -/
theorem C2_completion_behavior (c : ChState) (m : Nat) (w : Bool)
    (rest : List (Nat × Bool)) (v e : String) (h : c.running = (m, w) :: rest) :
    ((sendMessageComplete c (Except.ok v)).locked = false ∧
     (c.queue = [] →
        (sendMessageComplete c (Except.ok v)).queue = [] ∧
        (sendMessageComplete c (Except.ok v)).drains = c.drains) ∧
     (∀ q0 qs, c.queue = q0 :: qs →
        (sendMessageComplete c (Except.ok v)).queue = qs ∧
        (sendMessageComplete c (Except.ok v)).drains = c.drains ++ [q0]) ∧
     (sendMessageComplete c (Except.ok v)).resolved =
        c.resolved ++ [(m, Except.ok v, Except.ok v)]) ∧
    ((sendMessageComplete c (Except.error e)).locked = false ∧
     (sendMessageComplete c (Except.error e)).queue = c.queue ∧
     (sendMessageComplete c (Except.error e)).drains = c.drains) := by
  constructor
  · refine ⟨?_, ?_, ?_, ?_⟩
    · cases hq : c.queue with
      | nil => simp [sendMessageComplete, h, hq]
      | cons q0 qs => simp [sendMessageComplete, h, hq]
    · intro hq
      simp [sendMessageComplete, h, hq]
    · intro q0 qs hq
      simp [sendMessageComplete, h, hq]
    · cases hq : c.queue with
      | nil => simp [sendMessageComplete, h, hq]
      | cons q0 qs => simp [sendMessageComplete, h, hq]
  · exact ⟨by simp [sendMessageComplete, h], by simp [sendMessageComplete, h],
      by simp [sendMessageComplete, h]⟩

/-- Claim C2, witness: with one run in flight and one queued message,
successful completion pops the queue and schedules the resubmission;
failed completion leaves the queue as it was. -/
theorem C2_completion_behavior_witness :
    ((sendMessageComplete (qreach [Ev.submit 0 1, Ev.submit 0 2] 0) (Except.ok "r")).queue = [] ∧
     (sendMessageComplete (qreach [Ev.submit 0 1, Ev.submit 0 2] 0) (Except.ok "r")).drains =
       (qreach [Ev.submit 0 1, Ev.submit 0 2] 0).drains ++ [2]) ∧
    (sendMessageComplete (qreach [Ev.submit 0 1, Ev.submit 0 2] 0) (Except.error "x")).queue =
      (qreach [Ev.submit 0 1, Ev.submit 0 2] 0).queue :=
  ⟨(C2_completion_behavior (qreach [Ev.submit 0 1, Ev.submit 0 2] 0) 1 false [] "r" "x"
      (by decide)).1.2.2.1 2 [] (by decide),
   (C2_completion_behavior (qreach [Ev.submit 0 1, Ev.submit 0 2] 0) 1 false [] "r" "x"
      (by decide)).2.2.1⟩

/-- Claim C2, counterexample: messages 1 then 2 are submitted (2 is
queued behind 1's run); run 1 completes with a thrown error. The lock is
cleared but the pending list still holds message 2 and no resubmission
was scheduled — the oldest entry is NOT popped and `submit` is NOT
re-invoked on the failure path, contrary to the claim's "whether it
succeeds or fails". -/
theorem C2_counterexample :
    ((qreach [Ev.submit 0 1, Ev.submit 0 2, Ev.complete 0 (Except.error "boom")]) 0).locked
      = false ∧
    ((qreach [Ev.submit 0 1, Ev.submit 0 2, Ev.complete 0 (Except.error "boom")]) 0).queue
      = [2] ∧
    ((qreach [Ev.submit 0 1, Ev.submit 0 2, Ev.complete 0 (Except.error "boom")]) 0).drains
      = [] ∧
    ((qreach [Ev.submit 0 1, Ev.submit 0 2, Ev.complete 0 (Except.error "boom")]) 0).started
      = [1] := by
  decide

/-! ## Claim C9: idle-eviction timer behavior. -/

/-- Claim C9 (amended): the idle timer is re-armed to the fixed 30-minute
duration when a message's processing begins (`getOrInitHistory` calls
`resetInactivityTimer` in both branches), but it is NOT re-armed when the
run completes — the source performs no timer action there — so a run
whose model and tool calls take longer than the idle period has its
session history evicted mid-flight when the timer fires. -/
theorem C9_idle_timer (s : TimerState) (t d : Nat) :
    ((tstep s (TEv.msgStart t)).deadline = some (t + INACTIVITY_TIMEOUT_MS)) ∧
    ((tstep s (TEv.runEnd t)).deadline = s.deadline) ∧
    (s.deadline = some d → s.hasHistory = true →
       (tstep s (TEv.timerFire d)).hasHistory = false ∧
       (tstep s (TEv.timerFire d)).runInFlight = s.runInFlight) := by
  refine ⟨rfl, rfl, ?_⟩
  intro hd hh
  simp [tstep, hd, closeSession, hh]

/-- Claim C9, witness: a session whose run began at time 0 is evicted
when the timer fires at 1,800,000 ms, the run still being in flight. -/
theorem C9_idle_timer_witness :
    (tstep (treach [TEv.msgStart 0]) (TEv.timerFire 1800000)).hasHistory = false ∧
    (tstep (treach [TEv.msgStart 0]) (TEv.timerFire 1800000)).runInFlight =
      (treach [TEv.msgStart 0]).runInFlight :=
  (C9_idle_timer (treach [TEv.msgStart 0]) 0 1800000).2.2 (by decide) (by decide)

/-- Claim C9, counterexample: a run that starts at t = 0 and is still in
flight at t = 1,800,000 (30 minutes) has its history evicted mid-flight;
and completing a run performs no timer reset (the deadline is unchanged
by `runEnd`), contrary to "reset ... once more after the run completes"
and "an in-flight run is never forcibly cancelled by idle eviction". -/
theorem C9_counterexample :
    (treach [TEv.msgStart 0, TEv.timerFire 1800000]).runInFlight = true ∧
    (treach [TEv.msgStart 0, TEv.timerFire 1800000]).hasHistory = false ∧
    (tstep (treach [TEv.msgStart 0]) (TEv.runEnd 10)).deadline =
      (treach [TEv.msgStart 0]).deadline := by
  decide

/-! ## FIFO analysis (claim C4). -/

/-- Schedules under which per-channel FIFO holds: no message is submitted
for a channel while a drain callback for that channel is pending, and
every run completes successfully. -/
def admissibleB (s : QState) : Ev → Bool
  | .submit ch _ => (s ch).drains.isEmpty
  | .complete _ out => match out with | .ok _ => true | .error _ => false
  | .drain _ => true

def admissibleTrace : QState → List Ev → Bool
  | _, [] => true
  | s, e :: es => admissibleB s e && admissibleTrace (qstep s e) es

/-- FIFO invariant of a channel under admissible schedules: the external
arrival order equals the processing order followed by the still-waiting
entries (pending drains, then the queue), the lock tracks the in-flight
run, pending drains exist only while unlocked, an unlocked channel has no
silently stranded queue, and at most one drain is pending. -/
def FifoInv (c : ChState) : Prop :=
  c.arrivals = c.started ++ c.drains ++ c.queue ∧
  c.locked = !c.running.isEmpty ∧
  c.running.length ≤ 1 ∧
  (c.locked = true → c.drains = []) ∧
  (c.locked = false → c.queue = [] ∨ c.drains ≠ []) ∧
  c.drains.length ≤ 1

theorem FifoInv_init : FifoInv initCh := by
  refine ⟨rfl, rfl, ?_, ?_, ?_, ?_⟩ <;> simp [initCh]

/-- Unfolding equation: `sendMessage` on a locked channel only queues. -/
theorem sendMessageEnter_locked (c : ChState) (m : Nat) (w : Bool) (hl : c.locked = true) :
    sendMessageEnter c m w =
      { c with queue := c.queue ++ [m], everQueued := c.everQueued ++ [m] } := by
  simp only [sendMessageEnter]
  rw [if_pos hl]

/-- Unfolding equation: `sendMessage` on an unlocked channel starts the run. -/
theorem sendMessageEnter_unlocked (c : ChState) (m : Nat) (w : Bool) (hl : c.locked = false) :
    sendMessageEnter c m w =
      { c with locked := true, running := c.running ++ [(m, w)],
               started := c.started ++ [m] } := by
  simp only [sendMessageEnter]
  rw [if_neg (by simp [hl])]

theorem FifoInv_submit (c : ChState) (m : Nat) (h : FifoInv c) (hd : c.drains = []) :
    FifoInv (sendMessageEnter { c with arrivals := c.arrivals ++ [m] } m false) := by
  obtain ⟨ha, h1, h2, h3, h4, h5⟩ := h
  by_cases hl : c.locked = true
  · rw [sendMessageEnter_locked { c with arrivals := c.arrivals ++ [m] } m false hl]
    refine ⟨?_, h1, h2, fun _ => h3 hl, ?_, h5⟩
    · show c.arrivals ++ [m] = c.started ++ c.drains ++ (c.queue ++ [m])
      rw [ha]
      simp [List.append_assoc]
    · intro hlf
      have hlf' : c.locked = false := hlf
      rw [hl] at hlf'
      exact absurd hlf' (by simp)
  · have hl' : c.locked = false := by simpa using hl
    have hq : c.queue = [] := by
      rcases h4 hl' with h | h
      · exact h
      · exact absurd hd h
    have hr : c.running = [] := by
      cases hrr : c.running with
      | nil => rfl
      | cons a l => rw [hrr, hl'] at h1; simp at h1
    rw [sendMessageEnter_unlocked { c with arrivals := c.arrivals ++ [m] } m false hl']
    refine ⟨?_, ?_, ?_, ?_, ?_, ?_⟩
    · show c.arrivals ++ [m] = (c.started ++ [m]) ++ c.drains ++ c.queue
      rw [ha, hd, hq]
      simp
    · show true = !(c.running ++ [(m, false)]).isEmpty
      rw [hr]
      rfl
    · show (c.running ++ [(m, false)]).length ≤ 1
      rw [hr]
      simp
    · intro _
      exact hd
    · intro hlf
      exact absurd hlf (by simp)
    · show c.drains.length ≤ 1
      exact h5

theorem FifoInv_complete_ok (c : ChState) (v : String) (h : FifoInv c) :
    FifoInv (sendMessageComplete c (Except.ok v)) := by
  obtain ⟨ha, h1, h2, h3, h4, h5⟩ := h
  cases hr : c.running with
  | nil =>
    simp only [sendMessageComplete, hr]
    exact ⟨ha, h1, h2, h3, h4, h5⟩
  | cons p rest =>
    obtain ⟨m, w⟩ := p
    have hlock : c.locked = true := by rw [h1, hr]; rfl
    have hdr : c.drains = [] := h3 hlock
    have hrest : rest = [] := by
      rw [hr] at h2
      simpa using h2
    subst hrest
    cases hq : c.queue with
    | nil =>
      simp only [sendMessageComplete, hr, hq]
      refine ⟨?_, rfl, ?_, ?_, ?_, h5⟩
      · show c.arrivals = c.started ++ c.drains ++ []
        rw [ha, hq]
      · show ([] : List (Nat × Bool)).length ≤ 1
        simp
      · intro hlf
        exact absurd hlf (by simp)
      · intro _
        exact Or.inl rfl
    | cons q0 qs =>
      simp only [sendMessageComplete, hr, hq]
      refine ⟨?_, rfl, ?_, ?_, ?_, ?_⟩
      · show c.arrivals = c.started ++ (c.drains ++ [q0]) ++ qs
        rw [ha, hq, hdr]
        simp
      · show ([] : List (Nat × Bool)).length ≤ 1
        simp
      · intro hlf
        exact absurd hlf (by simp)
      · intro _
        refine Or.inr ?_
        simp
      · show (c.drains ++ [q0]).length ≤ 1
        rw [hdr]
        simp

theorem FifoInv_drain (c : ChState) (h : FifoInv c) : FifoInv (drainCallback c) := by
  obtain ⟨ha, h1, h2, h3, h4, h5⟩ := h
  cases hd : c.drains with
  | nil =>
    simp only [drainCallback, hd]
    exact ⟨ha, h1, h2, h3, h4, h5⟩
  | cons d0 ds =>
    have hds : ds = [] := by
      rw [hd] at h5
      simpa using h5
    subst hds
    have hlock : c.locked = false := by
      cases hll : c.locked with
      | false => rfl
      | true => rw [h3 hll] at hd; cases hd
    have hr : c.running = [] := by
      cases hrr : c.running with
      | nil => rfl
      | cons a l => rw [hrr, hlock] at h1; simp at h1
    simp only [drainCallback, hd]
    rw [sendMessageEnter_unlocked { c with drains := [] } d0 true hlock]
    refine ⟨?_, ?_, ?_, ?_, ?_, ?_⟩
    · show c.arrivals = (c.started ++ [d0]) ++ [] ++ c.queue
      rw [ha, hd]
      simp
    · show true = !(c.running ++ [(d0, true)]).isEmpty
      rw [hr]
      rfl
    · show (c.running ++ [(d0, true)]).length ≤ 1
      rw [hr]
      simp
    · intro _
      rfl
    · intro hlf
      exact absurd hlf (by simp)
    · show ([] : List Nat).length ≤ 1
      simp

theorem FifoInv_qstep (s : QState) (ev : Ev) (hadm : admissibleB s ev = true)
    (h : ∀ ch, FifoInv (s ch)) : ∀ ch, FifoInv (qstep s ev ch) := by
  intro ch
  cases ev with
  | submit ch' m =>
    by_cases he : ch = ch'
    · subst he
      simp only [qstep, updCh, if_pos rfl]
      have hd : (s ch).drains = [] := by
        cases hdd : (s ch).drains with
        | nil => rfl
        | cons a l => rw [admissibleB, hdd] at hadm; cases hadm
      exact FifoInv_submit (s ch) m (h ch) hd
    · simpa only [qstep, updCh, if_neg he] using h ch
  | complete ch' out =>
    cases out with
    | ok v =>
      by_cases he : ch = ch'
      · subst he
        simp only [qstep, updCh, if_pos rfl]
        exact FifoInv_complete_ok (s ch) v (h ch)
      · simpa only [qstep, updCh, if_neg he] using h ch
    | error e =>
      rw [admissibleB] at hadm
      cases hadm
  | drain ch' =>
    by_cases he : ch = ch'
    · subst he
      simp only [qstep, updCh, if_pos rfl]
      exact FifoInv_drain (s ch) (h ch)
    · simpa only [qstep, updCh, if_neg he] using h ch

theorem FifoInv_foldl :
    ∀ (evs : List Ev) (s : QState), admissibleTrace s evs = true →
      (∀ ch, FifoInv (s ch)) → ∀ ch, FifoInv (List.foldl qstep s evs ch) := by
  intro evs
  induction evs with
  | nil => intro s _ h ch; exact h ch
  | cons e es ih =>
    intro s had h ch
    rw [admissibleTrace, Bool.and_eq_true] at had
    exact ih (qstep s e) had.2 (FifoInv_qstep s e had.1 h) ch

theorem FifoInv_qreach (evs : List Ev) (hadm : admissibleTrace initQ evs = true) :
    ∀ ch, FifoInv (qreach evs ch) :=
  FifoInv_foldl evs initQ hadm (fun _ => FifoInv_init)

/-! ## Claim C4: per-channel FIFO ordering. -/

/-- Claim C4 (amended): messages for a channel are processed in strict
arrival order PROVIDED every run completes successfully and no message is
submitted for the channel while a drain callback for it is pending: for
every admissible trace the processing (history-append) order `started` is
a prefix of the arrival order (`arrivals = started ++ drains ++ queue`).
Steps for one channel never affect another channel's state, so channels
are independent. Without the proviso, a message arriving between a run's
completion and the drain callback acquires the freed lock first and the
drained entry is re-enqueued at the back, overtaking it — see the
counterexample. -/
theorem C4_fifo_per_channel (evs : List Ev) (hadm : admissibleTrace initQ evs = true) :
    (∀ ch, (qreach evs ch).arrivals =
       (qreach evs ch).started ++ (qreach evs ch).drains ++ (qreach evs ch).queue) ∧
    (∀ (s : QState) (ev : Ev) ch, Ev.chOf ev ≠ ch → qstep s ev ch = s ch) := by
  refine ⟨fun ch => (FifoInv_qreach evs hadm ch).1, ?_⟩
  intro s ev ch hne
  cases ev with
  | submit ch' m =>
    simp only [Ev.chOf] at hne
    simp only [qstep, updCh]
    rw [if_neg (fun hh => hne (hh.symm))]
  | complete ch' out =>
    simp only [Ev.chOf] at hne
    simp only [qstep, updCh]
    rw [if_neg (fun hh => hne (hh.symm))]
  | drain ch' =>
    simp only [Ev.chOf] at hne
    simp only [qstep, updCh]
    rw [if_neg (fun hh => hne (hh.symm))]

/-- Claim C4, witness: an admissible trace — submit 1, submit 2 (queued),
run 1 completes, drain starts 2, run 2 completes — keeps the processing
order equal to the arrival order. -/
theorem C4_fifo_per_channel_witness :
    (qreach [Ev.submit 0 1, Ev.submit 0 2, Ev.complete 0 (Except.ok "r"),
             Ev.drain 0, Ev.complete 0 (Except.ok "r2")] 0).arrivals =
      (qreach [Ev.submit 0 1, Ev.submit 0 2, Ev.complete 0 (Except.ok "r"),
               Ev.drain 0, Ev.complete 0 (Except.ok "r2")] 0).started ++
      (qreach [Ev.submit 0 1, Ev.submit 0 2, Ev.complete 0 (Except.ok "r"),
               Ev.drain 0, Ev.complete 0 (Except.ok "r2")] 0).drains ++
      (qreach [Ev.submit 0 1, Ev.submit 0 2, Ev.complete 0 (Except.ok "r"),
               Ev.drain 0, Ev.complete 0 (Except.ok "r2")] 0).queue :=
  (C4_fifo_per_channel
    [Ev.submit 0 1, Ev.submit 0 2, Ev.complete 0 (Except.ok "r"),
     Ev.drain 0, Ev.complete 0 (Except.ok "r2")] (by decide)).1 0

/-- Claim C4, counterexample: messages 10, 11, 12 arrive (11 and 12 are
queued while 10 runs — both submitted before 11's processing begins).
Run 10 completes and the drain for 11 is scheduled; message 13 arrives
BEFORE the `setImmediate` fires and acquires the freed lock; the drain
then re-enqueues 11 at the BACK of the queue, behind 12. The final
processing order is 10, 13, 12, 11: message 12's history entries precede
message 11's even though 11 arrived first, refuting strict arrival
order. -/
theorem C4_counterexample :
    ((qreach [Ev.submit 0 10, Ev.submit 0 11, Ev.submit 0 12,
              Ev.complete 0 (Except.ok "r1"), Ev.submit 0 13, Ev.drain 0,
              Ev.complete 0 (Except.ok "r2"), Ev.drain 0,
              Ev.complete 0 (Except.ok "r3"), Ev.drain 0,
              Ev.complete 0 (Except.ok "r4")]) 0).arrivals = [10, 11, 12, 13] ∧
    ((qreach [Ev.submit 0 10, Ev.submit 0 11, Ev.submit 0 12,
              Ev.complete 0 (Except.ok "r1"), Ev.submit 0 13, Ev.drain 0,
              Ev.complete 0 (Except.ok "r2"), Ev.drain 0,
              Ev.complete 0 (Except.ok "r3"), Ev.drain 0,
              Ev.complete 0 (Except.ok "r4")]) 0).started = [10, 13, 12, 11] := by
  decide

/-! ## Promise-resolution analysis (claim C10). -/

/-- Traces in which each submitted message carries a fresh identifier
(each physical message is a distinct object). -/
def freshB (s : QState) : Ev → Bool
  | .submit ch m => !(decide (m ∈ (s ch).arrivals))
  | .complete _ _ => true
  | .drain _ => true

def freshTrace : QState → List Ev → Bool
  | _, [] => true
  | s, e :: es => freshB s e && freshTrace (qstep s e) es

/-- Promise-wrapping invariant: runs started by the drain callback are
exactly those whose message was ever queued, and every settled promise of
an ever-queued message resolved (never rejected), with a thrown run
resolving to "Error: <message>". -/
def WrapInv (c : ChState) : Prop :=
  (∀ p ∈ c.running, p.1 ∈ c.arrivals) ∧
  (∀ p ∈ c.running, p.1 ∈ c.everQueued → p.2 = true) ∧
  (∀ m ∈ c.queue, m ∈ c.everQueued) ∧
  (∀ m ∈ c.drains, m ∈ c.everQueued) ∧
  (∀ m ∈ c.everQueued, m ∈ c.arrivals) ∧
  (∀ x ∈ c.resolved, x.1 ∈ c.arrivals) ∧
  (∀ x ∈ c.resolved, x.1 ∈ c.everQueued →
     (∃ v, x.2.2 = Except.ok v) ∧
     (∀ e, x.2.1 = Except.error e → x.2.2 = Except.ok ("Error: " ++ e)))

theorem WrapInv_init : WrapInv initCh := by
  refine ⟨?_, ?_, ?_, ?_, ?_, ?_, ?_⟩ <;> intro x hx <;> cases hx

theorem WrapInv_submit (c : ChState) (m : Nat) (h : WrapInv c)
    (hm : m ∉ c.arrivals) :
    WrapInv (sendMessageEnter { c with arrivals := c.arrivals ++ [m] } m false) := by
  obtain ⟨w1, w2, w3, w4, w5, w6, w7⟩ := h
  by_cases hl : c.locked = true
  · rw [sendMessageEnter_locked { c with arrivals := c.arrivals ++ [m] } m false hl]
    refine ⟨?_, ?_, ?_, ?_, ?_, ?_, ?_⟩
    · intro p hp
      exact List.mem_append_left _ (w1 p hp)
    · intro p hp hpe
      rcases List.mem_append.mp hpe with h' | h'
      · exact w2 p hp h'
      · have := w1 p hp
        rw [List.mem_singleton.mp h'] at this
        exact absurd this hm
    · intro x hx
      rcases List.mem_append.mp hx with h' | h'
      · exact List.mem_append_left _ (w3 x h')
      · exact List.mem_append_right _ h'
    · intro x hx
      exact List.mem_append_left _ (w4 x hx)
    · intro x hx
      rcases List.mem_append.mp hx with h' | h'
      · exact List.mem_append_left _ (w5 x h')
      · exact List.mem_append_right _ h'
    · intro x hx
      exact List.mem_append_left _ (w6 x hx)
    · intro x hx hxe
      rcases List.mem_append.mp hxe with h' | h'
      · exact w7 x hx h'
      · have := w6 x hx
        rw [List.mem_singleton.mp h'] at this
        exact absurd this hm
  · have hl' : c.locked = false := by simpa using hl
    rw [sendMessageEnter_unlocked { c with arrivals := c.arrivals ++ [m] } m false hl']
    refine ⟨?_, ?_, ?_, ?_, ?_, ?_, w7⟩
    · intro p hp
      rcases List.mem_append.mp hp with h' | h'
      · exact List.mem_append_left _ (w1 p h')
      · rw [List.mem_singleton.mp h']
        exact List.mem_append_right _ (List.mem_singleton.mpr rfl)
    · intro p hp hpe
      rcases List.mem_append.mp hp with h' | h'
      · exact w2 p h' hpe
      · rw [List.mem_singleton.mp h'] at hpe
        exact absurd (w5 _ hpe) hm
    · exact w3
    · exact w4
    · intro x hx
      exact List.mem_append_left _ (w5 x hx)
    · intro x hx
      exact List.mem_append_left _ (w6 x hx)

theorem WrapInv_complete (c : ChState) (out : Except String String) (h : WrapInv c) :
    WrapInv (sendMessageComplete c out) := by
  obtain ⟨w1, w2, w3, w4, w5, w6, w7⟩ := h
  cases hr : c.running with
  | nil =>
    simp only [sendMessageComplete, hr]
    exact ⟨w1, w2, w3, w4, w5, w6, w7⟩
  | cons p rest =>
    obtain ⟨m, w⟩ := p
    have hm_arr : m ∈ c.arrivals :=
      w1 (m, w) (by rw [hr]; exact List.mem_cons_self _ _)
    have hw : m ∈ c.everQueued → w = true :=
      fun he => w2 (m, w) (by rw [hr]; exact List.mem_cons_self _ _) he
    have hrest1 : ∀ p' ∈ rest, p'.1 ∈ c.arrivals :=
      fun p' hp' => w1 p' (by rw [hr]; exact List.mem_cons_of_mem _ hp')
    have hrest2 : ∀ p' ∈ rest, p'.1 ∈ c.everQueued → p'.2 = true :=
      fun p' hp' => w2 p' (by rw [hr]; exact List.mem_cons_of_mem _ hp')
    cases out with
    | ok v =>
      cases hq : c.queue with
      | nil =>
        simp only [sendMessageComplete, hr, hq]
        refine ⟨hrest1, hrest2, ?_, w4, w5, ?_, ?_⟩
        · intro x hx
          cases hx
        · intro x hx
          rcases List.mem_append.mp hx with h' | h'
          · exact w6 x h'
          · rw [List.mem_singleton.mp h']
            exact hm_arr
        · intro x hx hxe
          rcases List.mem_append.mp hx with h' | h'
          · exact w7 x h' hxe
          · rw [List.mem_singleton.mp h']
            exact ⟨⟨v, rfl⟩, fun e he => by cases he⟩
      | cons q0 qs =>
        simp only [sendMessageComplete, hr, hq]
        refine ⟨hrest1, hrest2, ?_, ?_, w5, ?_, ?_⟩
        · intro x hx
          exact w3 x (by rw [hq]; exact List.mem_cons_of_mem _ hx)
        · intro x hx
          rcases List.mem_append.mp hx with h' | h'
          · exact w4 x h'
          · rw [List.mem_singleton.mp h']
            exact w3 q0 (by rw [hq]; exact List.mem_cons_self _ _)
        · intro x hx
          rcases List.mem_append.mp hx with h' | h'
          · exact w6 x h'
          · rw [List.mem_singleton.mp h']
            exact hm_arr
        · intro x hx hxe
          rcases List.mem_append.mp hx with h' | h'
          · exact w7 x h' hxe
          · rw [List.mem_singleton.mp h']
            exact ⟨⟨v, rfl⟩, fun e he => by cases he⟩
    | error e =>
      cases hwv : w with
      | true =>
        simp only [sendMessageComplete, hr, hwv]
        refine ⟨hrest1, ?_, w3, w4, w5, ?_, ?_⟩
        · intro p' hp' hpe
          exact hrest2 p' hp' hpe
        · intro x hx
          rcases List.mem_append.mp hx with h' | h'
          · exact w6 x h'
          · rw [List.mem_singleton.mp h']
            exact hm_arr
        · intro x hx hxe
          rcases List.mem_append.mp hx with h' | h'
          · exact w7 x h' hxe
          · rw [List.mem_singleton.mp h']
            refine ⟨⟨"Error: " ++ e, by simp⟩, fun e' he' => ?_⟩
            cases he'
            simp
      | false =>
        simp only [sendMessageComplete, hr, hwv]
        refine ⟨hrest1, ?_, w3, w4, w5, ?_, ?_⟩
        · intro p' hp' hpe
          exact hrest2 p' hp' hpe
        · intro x hx
          rcases List.mem_append.mp hx with h' | h'
          · exact w6 x h'
          · rw [List.mem_singleton.mp h']
            exact hm_arr
        · intro x hx hxe
          rcases List.mem_append.mp hx with h' | h'
          · exact w7 x h' hxe
          · rw [List.mem_singleton.mp h'] at hxe
            have : w = true := hw hxe
            rw [hwv] at this
            exact absurd this (by simp)

theorem WrapInv_drain (c : ChState) (h : WrapInv c) : WrapInv (drainCallback c) := by
  obtain ⟨w1, w2, w3, w4, w5, w6, w7⟩ := h
  cases hd : c.drains with
  | nil =>
    simp only [drainCallback, hd]
    exact ⟨w1, w2, w3, w4, w5, w6, w7⟩
  | cons d0 ds =>
    have hd0q : d0 ∈ c.everQueued :=
      w4 d0 (by rw [hd]; exact List.mem_cons_self _ _)
    have hd0a : d0 ∈ c.arrivals := w5 d0 hd0q
    have hds : ∀ x ∈ ds, x ∈ c.everQueued :=
      fun x hx => w4 x (by rw [hd]; exact List.mem_cons_of_mem _ hx)
    simp only [drainCallback, hd]
    by_cases hl : c.locked = true
    · rw [sendMessageEnter_locked { c with drains := ds } d0 true hl]
      refine ⟨w1, ?_, ?_, ?_, ?_, w6, ?_⟩
      · intro p hp hpe
        rcases List.mem_append.mp hpe with h' | h'
        · exact w2 p hp h'
        · exact w2 p hp (by rw [List.mem_singleton.mp h']; exact hd0q)
      · intro x hx
        rcases List.mem_append.mp hx with h' | h'
        · exact List.mem_append_left _ (w3 x h')
        · exact List.mem_append_right _ h'
      · intro x hx
        exact List.mem_append_left _ (hds x hx)
      · intro x hx
        rcases List.mem_append.mp hx with h' | h'
        · exact w5 x h'
        · rw [List.mem_singleton.mp h']
          exact hd0a
      · intro x hx hxe
        rcases List.mem_append.mp hxe with h' | h'
        · exact w7 x hx h'
        · exact w7 x hx (by rw [List.mem_singleton.mp h']; exact hd0q)
    · have hl' : c.locked = false := by simpa using hl
      rw [sendMessageEnter_unlocked { c with drains := ds } d0 true hl']
      refine ⟨?_, ?_, w3, hds, w5, w6, w7⟩
      · intro p hp
        rcases List.mem_append.mp hp with h' | h'
        · exact w1 p h'
        · rw [List.mem_singleton.mp h']
          exact hd0a
      · intro p hp hpe
        rcases List.mem_append.mp hp with h' | h'
        · exact w2 p h' hpe
        · rw [List.mem_singleton.mp h']

theorem WrapInv_qstep (s : QState) (ev : Ev) (hfr : freshB s ev = true)
    (h : ∀ ch, WrapInv (s ch)) : ∀ ch, WrapInv (qstep s ev ch) := by
  intro ch
  cases ev with
  | submit ch' m =>
    by_cases he : ch = ch'
    · subst he
      simp only [qstep, updCh, if_pos rfl]
      have hm : m ∉ (s ch).arrivals := by
        rw [freshB] at hfr
        simpa using hfr
      exact WrapInv_submit (s ch) m (h ch) hm
    · simpa only [qstep, updCh, if_neg he] using h ch
  | complete ch' out =>
    by_cases he : ch = ch'
    · subst he
      simp only [qstep, updCh, if_pos rfl]
      exact WrapInv_complete (s ch) out (h ch)
    · simpa only [qstep, updCh, if_neg he] using h ch
  | drain ch' =>
    by_cases he : ch = ch'
    · subst he
      simp only [qstep, updCh, if_pos rfl]
      exact WrapInv_drain (s ch) (h ch)
    · simpa only [qstep, updCh, if_neg he] using h ch

theorem WrapInv_foldl :
    ∀ (evs : List Ev) (s : QState), freshTrace s evs = true →
      (∀ ch, WrapInv (s ch)) → ∀ ch, WrapInv (List.foldl qstep s evs ch) := by
  intro evs
  induction evs with
  | nil => intro s _ h ch; exact h ch
  | cons e es ih =>
    intro s hfr h ch
    rw [freshTrace, Bool.and_eq_true] at hfr
    exact ih (qstep s e) hfr.2 (WrapInv_qstep s e hfr.1 h) ch

theorem WrapInv_qreach (evs : List Ev) (hfr : freshTrace initQ evs = true) :
    ∀ ch, WrapInv (qreach evs ch) :=
  WrapInv_foldl evs initQ hfr (fun _ => WrapInv_init)

/-! ## Claim C10: queued promises never reject. -/

/-- Claim C10: in any trace with distinct message ids, every settled
promise of a message that was at some point enqueued behind an active run
is resolved, never rejected; when the processing of that entry threw an
error, the promise is resolved with the plain string "Error: " followed
by the error message. -/
theorem C10_queued_promise_resolves (evs : List Ev)
    (hfresh : freshTrace initQ evs = true) (ch : Nat) :
    ∀ x ∈ (qreach evs ch).resolved, x.1 ∈ (qreach evs ch).everQueued →
      (∃ v, x.2.2 = Except.ok v) ∧
      (∀ e, x.2.1 = Except.error e → x.2.2 = Except.ok ("Error: " ++ e)) :=
  (WrapInv_qreach evs hfresh ch).2.2.2.2.2.2

/-- Claim C10, witness: message 2 is enqueued behind run 1, its run later
throws "x", and its promise resolves with "Error: x". -/
theorem C10_queued_promise_resolves_witness :
    ((2, Except.error "x", Except.ok ("Error: " ++ "x")) :
      Nat × Except String String × Except String String).2.2 =
      Except.ok ("Error: " ++ "x") :=
  (C10_queued_promise_resolves
    [Ev.submit 0 1, Ev.submit 0 2, Ev.complete 0 (Except.ok "r"),
     Ev.drain 0, Ev.complete 0 (Except.error "x")] (by decide) 0
    (2, Except.error "x", Except.ok ("Error: " ++ "x")) (by decide) (by decide)).2
    "x" rfl

end BugBuster
